import Mathlib

/-!
Verification development for the `mirror` repository (package `mirror`,
file `mirror/mirror.go`, second revision — the one whose line numbers the
claims cite).

The repository's core works on three kinds of data:
  * relative paths (Go `string` keys, `/`-separated on the platform the
    tests assume),
  * `Folder` (`map[string]struct{}`), a set of directory paths,
  * `File` (`map[string]int64`), a map from file path to byte size.

A Go string is a byte sequence; every path the program builds is valid
UTF-8, and UTF-8 preserves both byte-wise lexicographic order and
byte-wise prefixes at the character level, so a path is modeled as its
character sequence `List Char`.  Go maps are modeled as the snapshot of
their entries in iteration order: `List RPath` for `Folder` and
`List (RPath × Int)` for `File`; a real map never holds a key twice, and
theorems that depend on that take `Nodup` on the keys.  Functions that
panic in Go (indexing an empty slice) return `Option`.
-/

/-- A relative path, as its character sequence (see the module comment). -/
abbrev RPath : Type := List Char

/-- The character sequence of a string literal. -/
def pathOf (s : String) : RPath := s.toList

/-- Go `Folder = map[string]struct{}`, as the snapshot of its keys. -/
abbrev Folder : Type := List RPath

/-- Go `File = map[string]int64`, as the snapshot of its entries. -/
abbrev File : Type := List (RPath × Int)

/-- Go `strings.HasPrefix s pre`: `pre` is a (raw, byte-wise) prefix of `s`. -/
def hasPrefix (s pre : RPath) : Bool := pre.isPrefixOf s

/-- Go `filepath.Dir`, restricted to the clean, `/`-separated relative
paths the program builds: everything before the final separator, and `"."`
when the path has no separator (also Go's result on those inputs). -/
def dir (p : RPath) : RPath :=
  match (p.splitOn '/').dropLast with
  | [] => ['.']
  | ps => List.intercalate ['/'] ps

/-- Go `sortFoldersOrFiles` (mirror.go:784): the map's keys, sorted
ascending by the byte-wise string order Go's `sort.Slice` comparator
`res[i] < res[j]` induces. -/
def sortFoldersOrFiles (keys : List RPath) : List RPath :=
  keys.insertionSort (· ≤ ·)

/-- The loop of `keepFoldersWithLongestPrefix` (mirror.go:815-820) over the
sorted keys: for each adjacent pair keep the left member when the two share
their parent directory or the right member does not extend the left as a
raw string prefix; the last key is always kept. -/
def keepLongestLoop : List RPath → List RPath
  | x :: y :: rest =>
      (if (dir y == dir x) || !(hasPrefix y x) then [x] else []) ++
        keepLongestLoop (y :: rest)
  | l => l

/-- Go `keepFoldersWithLongestPrefix` (mirror.go:812-823).  On an empty
map the Go code evaluates `sorted[len(folders)-1]` = `sorted[-1]` and
panics with an index-out-of-range error, modeled as `none`. -/
def keepFoldersWithLongestPrefix (folders : Folder) : Option (List RPath) :=
  match sortFoldersOrFiles folders with
  | [] => none
  | x :: rest => some (keepLongestLoop (x :: rest))

/-- The kept elements of `keepFoldersWithShortestPrefix`'s loop
(mirror.go:828-832), listed in ascending position: for each adjacent pair
of sorted keys, the right member is kept when the two share their parent
directory or it does not extend the left member as a raw string prefix. -/
def keepShortestLoop : List RPath → List RPath
  | x :: y :: rest =>
      (if (dir y == dir x) || !(hasPrefix y x) then [y] else []) ++
        keepShortestLoop (y :: rest)
  | _ => []

/-- Go `keepFoldersWithShortestPrefix` (mirror.go:825-836): the loop walks
the sorted keys from the top down (hence the reversal) and the first key
is always appended last.  On an empty map the Go code evaluates
`sorted[0]` on an empty slice and panics, modeled as `none`. -/
def keepFoldersWithShortestPrefix (folders : Folder) : Option (List RPath) :=
  match sortFoldersOrFiles folders with
  | [] => none
  | x :: rest => some ((keepShortestLoop (x :: rest)).reverse ++ [x])

example : sortFoldersOrFiles (List.map pathOf ["a/b/c", "a", "q", "f/a"]) =
    List.map pathOf ["a", "a/b/c", "f/a", "q"] := by decide

example : keepFoldersWithLongestPrefix
      (List.map pathOf ["a/b/c", "a", "a/b", "q", "g", "a/b/cc", "aa"]) =
    some (List.map pathOf ["a/b/c", "a/b/cc", "aa", "g", "q"]) := by decide

example : keepFoldersWithShortestPrefix
      (List.map pathOf ["a/b/c", "a", "a/b", "q", "g", "a/b/cc", "aa"]) =
    some (List.map pathOf ["q", "g", "aa", "a/b/cc", "a"]) := by decide

/-- Go `MissingFolders` (mirror.go:532-542): one pass over `src`, keeping
the keys that are not keys of `dst`. -/
def MissingFolders (dst src : Folder) : Folder :=
  src.foldl (fun res folder => if dst.contains folder then res else res ++ [folder]) []

/-- Go `FoldersToClean` (mirror.go:544-554): one pass over `dst`, keeping
the keys that are not keys of `src`. -/
def FoldersToClean (dst src : Folder) : Folder :=
  dst.foldl (fun res folder => if src.contains folder then res else res ++ [folder]) []

/-- Go `MissingFiles` (mirror.go:557-567): one pass over `src`, keeping an
entry when its key is absent from `dst` (`!ok`) or present with a different
size (`_size != size`), and accumulating the kept sizes. -/
def MissingFiles (dst src : File) : File × Int :=
  src.foldl
    (fun acc kv =>
      if dst.lookup kv.1 ≠ some kv.2 then (acc.1 ++ [kv], acc.2 + kv.2) else acc)
    ([], 0)

/-- Go `FilesToClean` (mirror.go:570-580): one pass over `dst`, keeping an
entry when its key is absent from `src`, and accumulating the kept sizes. -/
def FilesToClean (dst src : File) : File × Int :=
  dst.foldl
    (fun acc kv =>
      if src.lookup kv.1 = none then (acc.1 ++ [kv], acc.2 + kv.2) else acc)
    ([], 0)

lemma missingFolders_foldl (dst src acc : Folder) :
    src.foldl (fun res folder => if dst.contains folder then res else res ++ [folder]) acc =
      acc ++ src.filter (fun folder => !dst.contains folder) := by
  induction src generalizing acc with
  | nil => simp
  | cons k rest ih =>
      rw [List.foldl_cons]
      cases h : dst.contains k
      · have hk : k ∉ dst := by simpa using h
        rw [if_neg (by simp [h]), ih]
        simp [List.filter_cons, hk]
      · have hk : k ∈ dst := by simpa using h
        rw [if_pos (by simp [h]), ih]
        simp [List.filter_cons, hk]

lemma missingFolders_eq_filter (dst src : Folder) :
    MissingFolders dst src = src.filter (fun folder => !dst.contains folder) := by
  unfold MissingFolders
  rw [missingFolders_foldl]
  simp

lemma foldersToClean_eq_filter (dst src : Folder) :
    FoldersToClean dst src = dst.filter (fun folder => !src.contains folder) := by
  unfold FoldersToClean
  rw [missingFolders_foldl]
  simp

lemma mem_missingFolders (dst src : Folder) (k : RPath) :
    k ∈ MissingFolders dst src ↔ k ∈ src ∧ k ∉ dst := by
  simp [missingFolders_eq_filter, List.mem_filter, List.contains, List.elem_iff]

lemma mem_foldersToClean (dst src : Folder) (k : RPath) :
    k ∈ FoldersToClean dst src ↔ k ∈ dst ∧ k ∉ src := by
  simp [foldersToClean_eq_filter, List.mem_filter, List.contains, List.elem_iff]

lemma missingFiles_foldl (dst src : File) (acc : File × Int) :
    src.foldl
        (fun acc kv =>
          if dst.lookup kv.1 ≠ some kv.2 then (acc.1 ++ [kv], acc.2 + kv.2) else acc)
        acc =
      (acc.1 ++ src.filter (fun kv => decide (dst.lookup kv.1 ≠ some kv.2)),
       acc.2 + ((src.filter (fun kv => decide (dst.lookup kv.1 ≠ some kv.2))).map
         Prod.snd).sum) := by
  induction src generalizing acc with
  | nil => simp
  | cons kv rest ih =>
      rw [List.foldl_cons]
      by_cases h : dst.lookup kv.1 = some kv.2
      · rw [if_neg (not_not_intro h), ih]
        simp [List.filter_cons, h]
      · rw [if_pos h, ih]
        simp [List.filter_cons, h, add_assoc]

lemma missingFiles_eq (dst src : File) :
    MissingFiles dst src =
      (src.filter (fun kv => decide (dst.lookup kv.1 ≠ some kv.2)),
       ((src.filter (fun kv => decide (dst.lookup kv.1 ≠ some kv.2))).map Prod.snd).sum) := by
  unfold MissingFiles
  rw [missingFiles_foldl]
  simp

lemma filesToClean_foldl (dst src : File) (acc : File × Int) :
    dst.foldl
        (fun acc kv =>
          if src.lookup kv.1 = none then (acc.1 ++ [kv], acc.2 + kv.2) else acc)
        acc =
      (acc.1 ++ dst.filter (fun kv => decide (src.lookup kv.1 = none)),
       acc.2 + ((dst.filter (fun kv => decide (src.lookup kv.1 = none))).map
         Prod.snd).sum) := by
  induction dst generalizing acc with
  | nil => simp
  | cons kv rest ih =>
      rw [List.foldl_cons]
      by_cases h : src.lookup kv.1 = none
      · rw [if_pos h, ih]
        simp [List.filter_cons, h, add_assoc]
      · rw [if_neg h, ih]
        simp [List.filter_cons, h]

lemma filesToClean_eq (dst src : File) :
    FilesToClean dst src =
      (dst.filter (fun kv => decide (src.lookup kv.1 = none)),
       ((dst.filter (fun kv => decide (src.lookup kv.1 = none))).map Prod.snd).sum) := by
  unfold FilesToClean
  rw [filesToClean_foldl]
  simp

lemma option_ne_some_iff (o : Option Int) (v : Int) :
    o ≠ some v ↔ (o = none ∨ ∃ s, o = some s ∧ s ≠ v) := by
  cases o <;> simp

/-- C4: `MissingFiles dst src` holds exactly the entries of `src` whose key
is absent from `dst` or present there with a different size — an entry whose
key carries the same size on both sides is never kept, any size difference
keeps it — and the returned total is the sum of the kept sizes, as recorded
in `src`. -/
theorem missingFiles_exact_entries (dst src : File) :
    (∀ k v, (k, v) ∈ (MissingFiles dst src).1 ↔
      ((k, v) ∈ src ∧ (dst.lookup k = none ∨ ∃ s, dst.lookup k = some s ∧ s ≠ v))) ∧
    (MissingFiles dst src).2 = (((MissingFiles dst src).1).map Prod.snd).sum := by
  constructor
  · intro k v
    rw [missingFiles_eq, ← option_ne_some_iff]
    simp [List.mem_filter]
  · rw [missingFiles_eq]

/-- C5: `FilesToClean dst src` holds exactly the entries of `dst` whose key
is absent from `src`, with the sizes `dst` records, and the returned total
is the literal sum of the sizes of the kept entries. -/
theorem filesToClean_exact_entries (dst src : File) :
    (∀ k v, (k, v) ∈ (FilesToClean dst src).1 ↔
      ((k, v) ∈ dst ∧ src.lookup k = none)) ∧
    (FilesToClean dst src).2 = (((FilesToClean dst src).1).map Prod.snd).sum := by
  constructor
  · intro k v
    rw [filesToClean_eq]
    simp [List.mem_filter]
  · rw [filesToClean_eq]

/-- C6: the keys of `MissingFolders A B` come from `B` (its source
argument), the keys of `FoldersToClean A B` come from `A` (its destination
argument), and no key lies in both results. -/
theorem folderDiffs_disjoint_and_subsets (A B : Folder) :
    (∀ k, k ∈ MissingFolders A B → k ∈ B) ∧
    (∀ k, k ∈ FoldersToClean A B → k ∈ A) ∧
    (∀ k, ¬(k ∈ MissingFolders A B ∧ k ∈ FoldersToClean A B)) := by
  refine ⟨fun k h => ((mem_missingFolders A B k).mp h).1,
    fun k h => ((mem_foldersToClean A B k).mp h).1, fun k h => ?_⟩
  exact ((mem_foldersToClean A B k).mp h.2).2 ((mem_missingFolders A B k).mp h.1).1

/-- Modelled from the spec: the platform's path-separator-aware ancestor
test the spec mandates for the orderers ("a naive string-prefix test
without a separator/component boundary check is a correctness bug") —
`a` is a true ancestor of `b` when `a` followed by the separator is a
prefix of `b`. -/
def isAncestorSpec (a b : RPath) : Bool := hasPrefix b (a ++ ['/'])

/-- C1: at the DirectorySet {"ab", "abc/x"} neither path is a true
(separator-aware) ancestor of the other, yet `keepFoldersWithLongestPrefix`
drops "ab" (its sorted neighbour "abc/x" extends it as a raw string prefix
across a component boundary) and `keepFoldersWithShortestPrefix` drops
"abc/x" — the claim that both are kept fails on the code. -/
theorem orderers_raw_string_collapse :
    keepFoldersWithLongestPrefix [pathOf "ab", pathOf "abc/x"] =
        some [pathOf "abc/x"] ∧
    keepFoldersWithShortestPrefix [pathOf "ab", pathOf "abc/x"] =
        some [pathOf "ab"] ∧
    isAncestorSpec (pathOf "ab") (pathOf "abc/x") = false ∧
    isAncestorSpec (pathOf "abc/x") (pathOf "ab") = false := by decide

lemma sortFoldersOrFiles_eq_of_perm (S target : Folder) (h : S.Perm target)
    (hs : target.Sorted (· ≤ ·)) : sortFoldersOrFiles S = target :=
  List.eq_of_perm_of_sorted ((List.perm_insertionSort _ S).trans h)
    (List.sorted_insertionSort _ S) hs

/-- C2: on the DirectorySet consisting exactly of "a", "a/b" and "a/b/c"
(in any map-iteration order), `keepFoldersWithLongestPrefix` yields exactly
["a/b/c"] and `keepFoldersWithShortestPrefix` yields exactly ["a"]. -/
theorem orderers_on_abc_chain (S : Folder)
    (h : S.Perm (List.map pathOf ["a", "a/b", "a/b/c"])) :
    keepFoldersWithLongestPrefix S = some [pathOf "a/b/c"] ∧
    keepFoldersWithShortestPrefix S = some [pathOf "a"] := by
  have hs : sortFoldersOrFiles S = List.map pathOf ["a", "a/b", "a/b/c"] :=
    sortFoldersOrFiles_eq_of_perm S _ h (by decide)
  unfold keepFoldersWithLongestPrefix keepFoldersWithShortestPrefix
  rw [hs]
  decide

/-- Witness for C2 at the literal three-element DirectorySet. -/
theorem orderers_on_abc_chain_witness :
    keepFoldersWithLongestPrefix (List.map pathOf ["a", "a/b", "a/b/c"]) =
        some [pathOf "a/b/c"] ∧
    keepFoldersWithShortestPrefix (List.map pathOf ["a", "a/b", "a/b/c"]) =
        some [pathOf "a"] :=
  orderers_on_abc_chain (List.map pathOf ["a", "a/b", "a/b/c"]) (List.Perm.refl _)

/-- C3 counterexample: on the empty DirectorySet neither order function
yields the empty sequence — both reach the out-of-range slice index of the
Go code, modeled as `none`. -/
theorem orderers_empty_set_panic :
    keepFoldersWithLongestPrefix ([] : Folder) ≠ some [] ∧
    keepFoldersWithShortestPrefix ([] : Folder) ≠ some [] := by decide

/-- C3 (amended): both order functions succeed on every non-empty
DirectorySet, a DirectorySet of size 1 yields exactly its single element,
and on the empty DirectorySet both fail (the Go code indexes an empty
slice and panics, modeled as `none`) instead of yielding an empty
sequence. -/
theorem orderers_total_on_nonempty (S : Folder) (h : S ≠ []) :
    (keepFoldersWithLongestPrefix S).isSome = true ∧
    (keepFoldersWithShortestPrefix S).isSome = true ∧
    (∀ x : RPath, keepFoldersWithLongestPrefix [x] = some [x] ∧
      keepFoldersWithShortestPrefix [x] = some [x]) ∧
    keepFoldersWithLongestPrefix ([] : Folder) = none ∧
    keepFoldersWithShortestPrefix ([] : Folder) = none := by
  have hnil : sortFoldersOrFiles S ≠ [] := by
    intro hnil
    have p := List.perm_insertionSort (fun a b : RPath => a ≤ b) S
    rw [show List.insertionSort (fun a b : RPath => a ≤ b) S = sortFoldersOrFiles S
      from rfl, hnil] at p
    exact h p.symm.eq_nil
  refine ⟨?_, ?_, fun x => ⟨rfl, rfl⟩, rfl, rfl⟩
  · unfold keepFoldersWithLongestPrefix
    cases hm : sortFoldersOrFiles S with
    | nil => exact absurd hm hnil
    | cons x rest => simp
  · unfold keepFoldersWithShortestPrefix
    cases hm : sortFoldersOrFiles S with
    | nil => exact absurd hm hnil
    | cons x rest => simp

/-- Witness for C3's amended theorem at the singleton DirectorySet {"a"}. -/
theorem orderers_total_on_nonempty_witness :
    (keepFoldersWithLongestPrefix [pathOf "a"]).isSome = true ∧
    (keepFoldersWithShortestPrefix [pathOf "a"]).isSome = true ∧
    (∀ x : RPath, keepFoldersWithLongestPrefix [x] = some [x] ∧
      keepFoldersWithShortestPrefix [x] = some [x]) ∧
    keepFoldersWithLongestPrefix ([] : Folder) = none ∧
    keepFoldersWithShortestPrefix ([] : Folder) = none :=
  orderers_total_on_nonempty [pathOf "a"] (by decide)

/-- The copy pipeline's effect on the destination's folder set: every
folder of the computed diff now exists (claim C9's folder step). -/
def applyFolders (dstF missing : Folder) : Folder := dstF ++ missing

/-- Updating one entry of a file index to a given size (overwriting a
present key, adding an absent one). -/
def setFile (f : File) (k : RPath) (v : Int) : File :=
  (k, v) :: f.filter (fun kv => !(kv.1 == k))

/-- The copy pipeline's effect on the destination's file index: every key
of the computed diff now records the source's size (claim C9's file
step). -/
def applyFiles (dstX missing : File) : File :=
  missing.foldl (fun d kv => setFile d kv.1 kv.2) dstX

lemma lookup_filter_ne (f : File) (k q : RPath) (h : q ≠ k) :
    (f.filter (fun kv => !(kv.1 == k))).lookup q = f.lookup q := by
  induction f with
  | nil => simp
  | cons kv rest ih =>
      by_cases hk : kv.1 = k
      · rw [List.filter_cons, if_neg (by simp [hk]), ih]
        rw [List.lookup_cons]
        have : (q == kv.1) = false := by simp [hk, h]
        simp [this]
      · rw [List.filter_cons, if_pos (by simp [hk])]
        rw [List.lookup_cons, List.lookup_cons]
        cases hq : q == kv.1
        · simp [ih]
        · simp

lemma lookup_setFile_self (f : File) (k : RPath) (v : Int) :
    (setFile f k v).lookup k = some v := by
  simp [setFile, List.lookup_cons]

lemma lookup_setFile_ne (f : File) (k q : RPath) (v : Int) (h : q ≠ k) :
    (setFile f k v).lookup q = f.lookup q := by
  rw [setFile, List.lookup_cons]
  have hqk : (q == k) = false := by simp [h]
  simp only [hqk]
  exact lookup_filter_ne f k q h

lemma lookup_applyFiles_not_mem (missing : File) (dstX : File) (k : RPath)
    (h : k ∉ missing.map Prod.fst) :
    (applyFiles dstX missing).lookup k = dstX.lookup k := by
  induction missing generalizing dstX with
  | nil => rfl
  | cons kv rest ih =>
      have hne : k ≠ kv.1 := fun e => h (by simp [e])
      have htl : k ∉ rest.map Prod.fst := fun e => h (by simp [e])
      show (applyFiles (setFile dstX kv.1 kv.2) rest).lookup k = dstX.lookup k
      rw [ih _ htl, lookup_setFile_ne _ _ _ _ hne]

lemma lookup_applyFiles_mem (missing : File) (dstX : File) (k : RPath) (v : Int)
    (hnd : (missing.map Prod.fst).Nodup) (hmem : (k, v) ∈ missing) :
    (applyFiles dstX missing).lookup k = some v := by
  induction missing generalizing dstX with
  | nil => cases hmem
  | cons kv rest ih =>
      rw [List.map_cons, List.nodup_cons] at hnd
      rcases List.mem_cons.mp hmem with he | htl
      · subst he
        show (applyFiles (setFile dstX k v) rest).lookup k = some v
        rw [lookup_applyFiles_not_mem rest _ k hnd.1, lookup_setFile_self]
      · show (applyFiles (setFile dstX kv.1 kv.2) rest).lookup k = some v
        exact ih _ hnd.2 htl

lemma nodup_keys_unique (l : File) (hnd : (l.map Prod.fst).Nodup) (k : RPath)
    (v v' : Int) (h1 : (k, v) ∈ l) (h2 : (k, v') ∈ l) : v = v' := by
  induction l with
  | nil => cases h1
  | cons kv rest ih =>
      rw [List.map_cons, List.nodup_cons] at hnd
      rcases List.mem_cons.mp h1 with e1 | m1
      · subst e1
        rcases List.mem_cons.mp h2 with e2 | m2
        · exact (Prod.ext_iff.mp e2).2.symm
        · exact absurd (List.mem_map_of_mem Prod.fst m2) (by simpa using hnd.1)
      · rcases List.mem_cons.mp h2 with e2 | m2
        · subst e2
          exact absurd (List.mem_map_of_mem Prod.fst m1) (by simpa using hnd.1)
        · exact ih hnd.2 m1 m2

lemma missingFolders_after_apply (dstF srcF : Folder) :
    MissingFolders (applyFolders dstF (MissingFolders dstF srcF)) srcF = [] := by
  rw [missingFolders_eq_filter, List.filter_eq_nil_iff]
  intro k hk
  have hm : k ∈ applyFolders dstF (MissingFolders dstF srcF) := by
    by_cases hd : k ∈ dstF
    · exact List.mem_append_left _ hd
    · exact List.mem_append_right _ ((mem_missingFolders dstF srcF k).mpr ⟨hk, hd⟩)
  simp [hm]

lemma missingFiles_after_apply (dstX srcX : File)
    (hnd : (srcX.map Prod.fst).Nodup) :
    MissingFiles (applyFiles dstX (MissingFiles dstX srcX).1) srcX = ([], 0) := by
  have hres : (MissingFiles dstX srcX).1 =
      srcX.filter (fun kv => decide (dstX.lookup kv.1 ≠ some kv.2)) := by
    rw [missingFiles_eq]
  have hndres : ((MissingFiles dstX srcX).1.map Prod.fst).Nodup := by
    rw [hres]
    exact hnd.sublist ((List.filter_sublist srcX).map Prod.fst)
  have hlook : ∀ kv ∈ srcX,
      (applyFiles dstX (MissingFiles dstX srcX).1).lookup kv.1 = some kv.2 := by
    intro kv hkv
    by_cases hp : dstX.lookup kv.1 = some kv.2
    · have hnotin : kv.1 ∉ (MissingFiles dstX srcX).1.map Prod.fst := by
        intro hc
        rcases List.mem_map.mp hc with ⟨kv', hkv', he⟩
        rw [hres] at hkv'
        have h1 := (List.mem_filter.mp hkv').1
        have h2 : dstX.lookup kv'.1 ≠ some kv'.2 :=
          of_decide_eq_true (List.mem_filter.mp hkv').2
        have hv : kv.2 = kv'.2 :=
          nodup_keys_unique srcX hnd kv.1 kv.2 kv'.2 hkv (by rw [← he]; exact h1)
        rw [he, ← hv] at h2
        exact h2 hp
      rw [lookup_applyFiles_not_mem _ _ _ hnotin]
      exact hp
    · have him : kv ∈ (MissingFiles dstX srcX).1 := by
        rw [hres]
        exact List.mem_filter.mpr ⟨hkv, decide_eq_true hp⟩
      exact lookup_applyFiles_mem _ _ _ _ hndres him
  rw [missingFiles_eq]
  have hfil : srcX.filter (fun kv =>
      decide ((applyFiles dstX (MissingFiles dstX srcX).1).lookup kv.1 ≠ some kv.2)) = [] := by
    rw [List.filter_eq_nil_iff]
    intro kv hkv
    simp [hlook kv hkv]
  rw [hfil]
  simp

/-- C9: applying the computed diff to the destination empties the next
diff: after adding every folder of `MissingFolders dstF srcF` to `dstF`
and setting the destination's entry to the source's size for every key of
`MissingFiles dstX srcX`, a second run of both diff functions against the
same source returns empty results, the file diff with total size 0. -/
theorem copy_pipeline_idempotent (dstF srcF : Folder) (dstX srcX : File)
    (hnd : (srcX.map Prod.fst).Nodup) :
    MissingFolders (applyFolders dstF (MissingFolders dstF srcF)) srcF = [] ∧
    MissingFiles (applyFiles dstX (MissingFiles dstX srcX).1) srcX = ([], 0) :=
  ⟨missingFolders_after_apply dstF srcF, missingFiles_after_apply dstX srcX hnd⟩

/-- Witness for C9 at a concrete pair of trees: folder "y" is missing,
file "f" differs in size (1 against 2) and file "g" is absent. -/
theorem copy_pipeline_idempotent_witness :
    MissingFolders
        (applyFolders [pathOf "x"] (MissingFolders [pathOf "x"] [pathOf "x", pathOf "y"]))
        [pathOf "x", pathOf "y"] = [] ∧
    MissingFiles
        (applyFiles [(pathOf "f", 1)]
          (MissingFiles [(pathOf "f", 1)] [(pathOf "f", 2), (pathOf "g", 5)]).1)
        [(pathOf "f", 2), (pathOf "g", 5)] = ([], 0) :=
  copy_pipeline_idempotent [pathOf "x"] [pathOf "x", pathOf "y"]
    [(pathOf "f", 1)] [(pathOf "f", 2), (pathOf "g", 5)] (by decide)

/-- One entry of a directory listing, as `readFolder`'s walk sees it: a
subdirectory with its own listing, or a non-directory entry — a regular
file, or a symbolic link (which `os.ReadDir` reports without following). -/
inductive Entry where
  | dir (name : RPath) (children : List Entry)
  | file (name : RPath) (size : Int) (symlink : Bool)

/-- Go constant `FolderToIgnore` (mirror.go:403). -/
def FolderToIgnore : RPath := pathOf "dont_mirror"

/-- The relative path of a child of the directory at relative path `pre`:
the net effect of `filepath.Join` followed by `filepath.Rel` against the
walk's starting path, on the clean paths the walk builds. -/
def joinRel (pre name : RPath) : RPath :=
  if pre = [] then name else pre ++ '/' :: name

/-- Go `readFolder` (mirror.go:498-530): fold each entry of the listing
`items` into the accumulated folder set and file index `acc`; a
subdirectory not named `dont_mirror` is recorded and recursed into, a
subdirectory named `dont_mirror` is skipped whole, a symbolic link is
skipped, any other file is recorded with its size.  `pre` is the relative
path of the directory being listed (`[]` at the walk's root). -/
def readFolderAux (pre : RPath) (items : List Entry) (acc : Folder × File) :
    Folder × File :=
  match items with
  | [] => acc
  | Entry.dir name children :: rest =>
      if name ≠ FolderToIgnore then
        readFolderAux pre rest
          (readFolderAux (joinRel pre name) children
            (acc.1 ++ [joinRel pre name], acc.2))
      else readFolderAux pre rest acc
  | Entry.file name size symlink :: rest =>
      readFolderAux pre rest
        (if symlink then acc else (acc.1, acc.2 ++ [(joinRel pre name, size)]))

/-- Go `ReadFolder` (mirror.go:491-496): walk a tree from its root, with
empty accumulators. -/
def ReadFolder (root : List Entry) : Folder × File := readFolderAux [] root ([], [])

/-- A listing with every directory named `dont_mirror` — and with it its
entire subtree — removed, at every depth. -/
def eraseIgnored : List Entry → List Entry
  | [] => []
  | Entry.dir name children :: rest =>
      if name ≠ FolderToIgnore then
        Entry.dir name (eraseIgnored children) :: eraseIgnored rest
      else eraseIgnored rest
  | e :: rest => e :: eraseIgnored rest

/-- A listing with every symbolic-link entry removed, at every depth. -/
def eraseSymlinks : List Entry → List Entry
  | [] => []
  | Entry.dir name children :: rest =>
      Entry.dir name (eraseSymlinks children) :: eraseSymlinks rest
  | Entry.file name size symlink :: rest =>
      if symlink then eraseSymlinks rest
      else Entry.file name size symlink :: eraseSymlinks rest

lemma readFolderAux_eraseIgnored (items : List Entry) :
    ∀ (pre : RPath) (acc : Folder × File),
      readFolderAux pre items acc = readFolderAux pre (eraseIgnored items) acc := by
  induction items using eraseIgnored.induct with
  | case1 => intro pre acc; rw [eraseIgnored]
  | case2 name children rest hne ihc ihr =>
      intro pre acc
      rw [eraseIgnored, if_pos hne, readFolderAux, if_pos hne, readFolderAux,
        if_pos hne, ← ihc, ← ihr]
  | case3 name children rest hne ihr =>
      intro pre acc
      rw [eraseIgnored, if_neg hne, readFolderAux, if_neg hne, ihr]
  | case4 e rest hnotdir ihr =>
      intro pre acc
      cases e with
      | dir name children => exact absurd rfl (hnotdir name children)
      | file name size symlink =>
          rw [show eraseIgnored (Entry.file name size symlink :: rest) =
              Entry.file name size symlink :: eraseIgnored rest from by
            simp [eraseIgnored], readFolderAux, readFolderAux, ihr]

lemma readFolderAux_eraseSymlinks (items : List Entry) :
    ∀ (pre : RPath) (acc : Folder × File),
      readFolderAux pre items acc = readFolderAux pre (eraseSymlinks items) acc := by
  induction items using eraseSymlinks.induct with
  | case1 => intro pre acc; rw [eraseSymlinks]
  | case2 name children rest ihc ihr =>
      intro pre acc
      rw [eraseSymlinks, readFolderAux, readFolderAux]
      by_cases hni : name ≠ FolderToIgnore
      · rw [if_pos hni, if_pos hni, ← ihc, ← ihr]
      · rw [if_neg hni, if_neg hni, ihr]
  | case3 name size rest ihr =>
      intro pre acc
      rw [show eraseSymlinks (Entry.file name size true :: rest) = eraseSymlinks rest
          from by rw [eraseSymlinks, if_pos rfl]]
      rw [readFolderAux, if_pos rfl, ihr]
  | case4 name size symlink rest hs ihr =>
      intro pre acc
      have hsf : symlink = false := by simpa using hs
      subst hsf
      rw [show eraseSymlinks (Entry.file name size false :: rest) =
          Entry.file name size false :: eraseSymlinks rest from by
        rw [eraseSymlinks, if_neg (by simp)]]
      rw [readFolderAux, readFolderAux, ihr]

/-- C7: the walk treats any listing exactly as the same listing with every
directory named `dont_mirror` erased — such a directory is never recorded,
never entered, and nothing below it reaches either output — and,
concretely, a root holding dont_mirror/secret.txt yields empty outputs,
while a sibling regular file is still the only entry indexed. -/
theorem readFolder_skips_ignored_dir :
    (∀ (items : List Entry) (pre : RPath) (acc : Folder × File),
      readFolderAux pre items acc = readFolderAux pre (eraseIgnored items) acc) ∧
    ReadFolder [Entry.dir (pathOf "dont_mirror")
        [Entry.file (pathOf "secret.txt") 5 false]] = ([], []) ∧
    ReadFolder [Entry.dir (pathOf "dont_mirror")
          [Entry.file (pathOf "secret.txt") 5 false],
        Entry.file (pathOf "keep.txt") 2 false] = ([], [(pathOf "keep.txt", 2)]) := by
  refine ⟨fun items => readFolderAux_eraseIgnored items, ?_, ?_⟩ <;>
    simp +decide [ReadFolder, readFolderAux, FolderToIgnore, pathOf, joinRel]

/-- C8: the walk treats any listing exactly as the same listing with every
symbolic-link entry erased, so a symbolic link is never recorded in the
file index — concretely, a directory holding a regular file and a symbolic
link yields a file index with the regular file as its only entry. -/
theorem readFolder_skips_symlinks :
    (∀ (items : List Entry) (pre : RPath) (acc : Folder × File),
      readFolderAux pre items acc = readFolderAux pre (eraseSymlinks items) acc) ∧
    ReadFolder [Entry.dir (pathOf "d")
        [Entry.file (pathOf "a.txt") 3 false, Entry.file (pathOf "l") 9 true]] =
      ([pathOf "d"], [(pathOf "d/a.txt", 3)]) := by
  refine ⟨fun items => readFolderAux_eraseSymlinks items, ?_⟩
  simp +decide [ReadFolder, readFolderAux, FolderToIgnore, pathOf, joinRel]

lemma hasPrefix_refl (p : RPath) : hasPrefix p p = true := by
  simp [hasPrefix, List.isPrefixOf_iff_prefix]

lemma hasPrefix_trans {a b c : RPath} (h1 : hasPrefix b a = true)
    (h2 : hasPrefix c b = true) : hasPrefix c a = true := by
  simp only [hasPrefix, List.isPrefixOf_iff_prefix] at h1 h2 ⊢
  exact h1.trans h2

lemma keepLongestLoop_subset : ∀ (l : List RPath), ∀ p ∈ keepLongestLoop l, p ∈ l
  | [] => by simp [keepLongestLoop]
  | [x] => by simp [keepLongestLoop]
  | x :: y :: rest => by
      intro p hp
      rw [keepLongestLoop] at hp
      rcases List.mem_append.mp hp with h1 | h2
      · cases hifc : ((dir y == dir x) || !(hasPrefix y x)) with
        | false => simp [hifc] at h1
        | true =>
            simp only [hifc, if_true, List.mem_singleton] at h1
            simp [h1]
      · exact List.mem_cons_of_mem x (keepLongestLoop_subset (y :: rest) p h2)

lemma keepLongestLoop_covers : ∀ (l : List RPath), ∀ p ∈ l,
    ∃ q ∈ keepLongestLoop l, hasPrefix q p = true
  | [] => by simp
  | [x] => by
      intro p hp
      rw [List.mem_singleton] at hp
      exact ⟨x, by simp [keepLongestLoop], by rw [hp]; exact hasPrefix_refl x⟩
  | x :: y :: rest => by
      intro p hp
      rcases List.mem_cons.mp hp with he | htl
      · by_cases hc : ((dir y == dir x) || !(hasPrefix y x)) = true
        · refine ⟨x, ?_, by rw [he]; exact hasPrefix_refl x⟩
          rw [keepLongestLoop]
          exact List.mem_append_left _ (by simp [hc])
        · have hyx : hasPrefix y x = true := by
            cases hpf : hasPrefix y x with
            | false => exact absurd (by simp [hpf]) hc
            | true => rfl
          obtain ⟨q, hq, hqy⟩ := keepLongestLoop_covers (y :: rest) y (by simp)
          refine ⟨q, ?_, by rw [he]; exact hasPrefix_trans hyx hqy⟩
          rw [keepLongestLoop]
          exact List.mem_append_right _ hq
      · obtain ⟨q, hq, hqp⟩ := keepLongestLoop_covers (y :: rest) p htl
        refine ⟨q, ?_, hqp⟩
        rw [keepLongestLoop]
        exact List.mem_append_right _ hq

lemma keepShortestLoop_subset : ∀ (l : List RPath), ∀ p ∈ keepShortestLoop l, p ∈ l
  | [] => by simp [keepShortestLoop]
  | [x] => by simp [keepShortestLoop]
  | x :: y :: rest => by
      intro p hp
      rw [keepShortestLoop] at hp
      rcases List.mem_append.mp hp with h1 | h2
      · cases hifc : ((dir y == dir x) || !(hasPrefix y x)) with
        | false => simp [hifc] at h1
        | true =>
            simp only [hifc, if_true, List.mem_singleton] at h1
            simp [h1]
      · exact List.mem_cons_of_mem x (keepShortestLoop_subset (y :: rest) p h2)

lemma keepShortestLoop_covers : ∀ (x : RPath) (rest : List RPath), ∀ p ∈ x :: rest,
    ∃ q, (q ∈ keepShortestLoop (x :: rest) ∨ q = x) ∧ hasPrefix p q = true
  | x, [] => by
      intro p hp
      rw [List.mem_singleton] at hp
      exact ⟨x, Or.inr rfl, by rw [hp]; exact hasPrefix_refl x⟩
  | x, y :: rest => by
      intro p hp
      rcases List.mem_cons.mp hp with he | htl
      · exact ⟨x, Or.inr rfl, by rw [he]; exact hasPrefix_refl x⟩
      · obtain ⟨q, hq, hpq⟩ := keepShortestLoop_covers y rest p htl
        rcases hq with hin | he
        · refine ⟨q, Or.inl ?_, hpq⟩
          rw [keepShortestLoop]
          exact List.mem_append_right _ hin
        · by_cases hc : ((dir y == dir x) || !(hasPrefix y x)) = true
          · refine ⟨q, Or.inl ?_, hpq⟩
            rw [keepShortestLoop]
            refine List.mem_append_left _ (by simp [hc, he])
          · have hyx : hasPrefix y x = true := by
              cases hpf : hasPrefix y x with
              | false => exact absurd (by simp [hpf]) hc
              | true => rfl
            refine ⟨x, Or.inr rfl, hasPrefix_trans hyx (by rw [← he]; exact hpq)⟩

/-- C10: on every non-empty DirectorySet both orderers succeed, each
output is a subset of the input, and no input path is silently lost:
every input path appears in the creation output or is a raw string prefix
of one of its elements, and appears in the deletion output or has one of
its elements as a raw string prefix of it. -/
theorem orderers_cover_input (S : Folder) (h : S ≠ []) :
    ∃ lLong lShort,
      keepFoldersWithLongestPrefix S = some lLong ∧
      keepFoldersWithShortestPrefix S = some lShort ∧
      (∀ p ∈ lLong, p ∈ S) ∧ (∀ p ∈ lShort, p ∈ S) ∧
      (∀ p ∈ S, p ∈ lLong ∨ ∃ q ∈ lLong, hasPrefix q p = true) ∧
      (∀ p ∈ S, p ∈ lShort ∨ ∃ q ∈ lShort, hasPrefix p q = true) := by
  have hperm : (sortFoldersOrFiles S).Perm S := List.perm_insertionSort _ S
  obtain ⟨x, rest, hx⟩ : ∃ x rest, sortFoldersOrFiles S = x :: rest := by
    cases hm : sortFoldersOrFiles S with
    | nil => exact absurd (hm ▸ hperm).symm.eq_nil h
    | cons x rest => exact ⟨x, rest, rfl⟩
  have hmem : ∀ p, p ∈ x :: rest ↔ p ∈ S := fun p => (hx ▸ hperm).mem_iff
  refine ⟨keepLongestLoop (x :: rest), (keepShortestLoop (x :: rest)).reverse ++ [x],
    ?_, ?_, ?_, ?_, ?_, ?_⟩
  · unfold keepFoldersWithLongestPrefix
    rw [hx]
  · unfold keepFoldersWithShortestPrefix
    rw [hx]
  · intro p hp
    exact (hmem p).mp (keepLongestLoop_subset (x :: rest) p hp)
  · intro p hp
    rcases List.mem_append.mp hp with h1 | h2
    · exact (hmem p).mp (keepShortestLoop_subset (x :: rest) p (List.mem_reverse.mp h1))
    · rw [List.mem_singleton] at h2
      exact (hmem p).mp (by rw [h2]; exact List.mem_cons_self x rest)
  · intro p hp
    obtain ⟨q, hq, hqp⟩ := keepLongestLoop_covers (x :: rest) p ((hmem p).mpr hp)
    exact Or.inr ⟨q, hq, hqp⟩
  · intro p hp
    obtain ⟨q, hq, hpq⟩ := keepShortestLoop_covers x rest p ((hmem p).mpr hp)
    refine Or.inr ⟨q, ?_, hpq⟩
    rcases hq with hin | he
    · exact List.mem_append_left _ (List.mem_reverse.mpr hin)
    · exact List.mem_append_right _ (by simp [he])

/-- Witness for C10 at the concrete DirectorySet {"a", "a/b"}. -/
theorem orderers_cover_input_witness :
    ∃ lLong lShort,
      keepFoldersWithLongestPrefix [pathOf "a", pathOf "a/b"] = some lLong ∧
      keepFoldersWithShortestPrefix [pathOf "a", pathOf "a/b"] = some lShort ∧
      (∀ p ∈ lLong, p ∈ [pathOf "a", pathOf "a/b"]) ∧
      (∀ p ∈ lShort, p ∈ [pathOf "a", pathOf "a/b"]) ∧
      (∀ p ∈ [pathOf "a", pathOf "a/b"],
        p ∈ lLong ∨ ∃ q ∈ lLong, hasPrefix q p = true) ∧
      (∀ p ∈ [pathOf "a", pathOf "a/b"],
        p ∈ lShort ∨ ∃ q ∈ lShort, hasPrefix p q = true) :=
  orderers_cover_input [pathOf "a", pathOf "a/b"] (by decide)
